import Mathlib

/-!
Verification development for the faustlsp workspace semantic-analysis engine.

Each Go function referenced by the specification is shallowly embedded as an
executable Lean definition translated from the Go source:

  * machine strings are modelled as `List Char` (valid UTF-8 text) with Go
    byte lengths recovered via the UTF-8 width of each scalar;
  * Go maps are modelled as association lists or as total functions with the
    zero value as default, whichever matches every observation the embedded
    code performs;
  * Go functions whose recursion is not structurally bounded (the symbol
    resolver, which descends across files of the store) take an explicit
    fuel parameter; a `none` result means the computation did not complete
    within the given fuel (for the resolver this is how non-termination of
    the Go original is observed: the result is `none` for every fuel);
  * Go panics are modelled as `Except.error` results where noted.
-/

namespace Faustlsp

/-- LSP position: zero-based line and character count in the negotiated
encoding, from `transport.Position` (Line, Character uint32). -/
structure Position where
  line : Nat
  character : Nat
deriving DecidableEq, Repr

/-- LSP range, from `transport.Range`. The Go field `End` is spelled
`endPos` because `end` is reserved in Lean. -/
structure Range where
  start : Position
  endPos : Position
deriving DecidableEq, Repr

/-- Embedding of `RangeContains` (symbols source, NEW variant): the
line-then-character two-dimensional containment test. -/
def RangeContains (parent child : Range) : Bool :=
  let start_is_between :=
    decide (parent.start.line < child.start.line) ||
      (decide (parent.start.line = child.start.line) &&
        decide (parent.start.character ≤ child.start.character))
  let end_is_between :=
    decide (parent.endPos.line > child.endPos.line) ||
      (decide (parent.endPos.line = child.endPos.line) &&
        decide (parent.endPos.character ≥ child.endPos.character))
  start_is_between && end_is_between

/-- Embedding of the position-encoding negotiation in `Initialize`
(lifecycle source): the first client-offered encoding decides; the Go code
indexes `PositionEncodings[0]`, so an empty offer list panics (`none`). -/
def choosePositionEncoding : List String → Option String
  | [] => none
  | first :: _ =>
    if first = "utf-16" then some "utf-16"
    else if first = "utf-32" then some "utf-32"
    else some "utf-16"

/-- Embedding of Go `slices.Delete(l, i, j)`: removes the elements
`l[i:j]`. -/
def slicesDelete (l : List String) (i j : Nat) : List String :=
  l.take i ++ l.drop j

/-- Embedding of `Workspace.removeFile` (workspace source): ranges over the
original tracked-file list and calls `slices.Delete(files, i, i)` on every
index holding `path`. -/
def removeFile (path : String) (files : List String) : List String :=
  files.enum.foldl
    (fun acc p => if p.2 = path then slicesDelete acc p.1 p.1 else acc)
    files

/-- Embedding of the `fsnotify.Remove` branch of `HandleDiskEvent`
(workspace source): the file store drops the record for the path
(`Files.RemoveFromPath`), the workspace tracked-file list is filtered by
`removeFile`, and the temp-mirror entry is unlinked (`os.Remove`). The
store and the mirror are modelled by their path sets. -/
def handleRemoveEvent (path : String) (store wsFiles mirror : List String) :
    List String × List String × List String :=
  (store.filter (fun p => ¬ p = path),
   removeFile path wsFiles,
   mirror.filter (fun p => ¬ p = path))

theorem slicesDelete_self (l : List String) (i : Nat) :
    slicesDelete l i i = l := by
  simp [slicesDelete]

/-- Claim C6: `RangeContains parent child` is exactly the two-dimensional
line-then-character containment test, and in particular the parent range
(0,0)–(2,0) contains the child range (1,0)–(1,17). -/
theorem rangeContains_spec :
    (∀ parent child : Range,
        RangeContains parent child = true ↔
          ((parent.start.line < child.start.line ∨
              (parent.start.line = child.start.line ∧
                parent.start.character ≤ child.start.character)) ∧
            (parent.endPos.line > child.endPos.line ∨
              (parent.endPos.line = child.endPos.line ∧
                parent.endPos.character ≥ child.endPos.character)))) ∧
      RangeContains ⟨⟨0, 0⟩, ⟨2, 0⟩⟩ ⟨⟨1, 0⟩, ⟨1, 17⟩⟩ = true := by
  constructor
  · intro parent child
    simp [RangeContains]
  · rfl

/-- Claim C8, counterexample: a client whose offered encoding list starts
with "utf-8" is answered with "utf-16", not "utf-32" as the claim states. -/
theorem choosePositionEncoding_utf8_counterexample :
    choosePositionEncoding ["utf-8"] = some "utf-16" ∧
      ¬ choosePositionEncoding ["utf-8"] = some "utf-32" := by
  constructor
  · rfl
  · decide

/-- Claim C8, amended: the announced encoding is "utf-16" when the first
offered encoding is "utf-16", "utf-32" when it is "utf-32", and "utf-16"
(not "utf-32") for any other first offer; "utf-8" is never chosen. -/
theorem choosePositionEncoding_spec (first : String) (rest : List String) :
    (first = "utf-16" →
        choosePositionEncoding (first :: rest) = some "utf-16") ∧
      (first = "utf-32" →
        choosePositionEncoding (first :: rest) = some "utf-32") ∧
      (¬ first = "utf-16" → ¬ first = "utf-32" →
        choosePositionEncoding (first :: rest) = some "utf-16") ∧
      ¬ choosePositionEncoding (first :: rest) = some "utf-8" := by
  refine ⟨?_, ?_, ?_, ?_⟩
  · intro h; simp [choosePositionEncoding, h]
  · intro h; simp [choosePositionEncoding, h]
  · intro h1 h2; simp [choosePositionEncoding, h1, h2]
  · by_cases h1 : first = "utf-16" <;> by_cases h2 : first = "utf-32" <;>
      simp [choosePositionEncoding, h1, h2]

/-- Claim C8, witness for the amended statement at the concrete offer list
["utf-8"]. -/
theorem choosePositionEncoding_spec_witness :
    choosePositionEncoding ["utf-8"] = some "utf-16" ∧
      ¬ choosePositionEncoding ["utf-8"] = some "utf-8" :=
  ⟨(choosePositionEncoding_spec "utf-8" []).2.2.1 (by decide) (by decide),
   (choosePositionEncoding_spec "utf-8" []).2.2.2⟩

/-- Claim C9: `removeFile` never changes the tracked-file list, because
`slices.Delete(files, i, i)` deletes the empty span `files[i:i]`. Handling
a remove event therefore deletes the path from the store and from the
mirror but leaves the workspace tracked-file list intact: at the failing
input below the path "p" is still tracked afterwards. -/
theorem handleRemoveEvent_keeps_tracked_file :
    (∀ path files, removeFile path files = files) ∧
      handleRemoveEvent "p" ["p"] ["p"] ["p"] = ([], ["p"], []) := by
  have hrm : ∀ path files, removeFile path files = files := by
    intro path files
    unfold removeFile
    generalize files.enum = idx
    induction idx generalizing files with
    | nil => rfl
    | cons p rest ih =>
      simp only [List.foldl_cons]
      have hf : (if p.2 = path then slicesDelete files p.1 p.1 else files)
          = files := by
        by_cases h : p.2 = path <;> simp [h, slicesDelete_self]
      rw [hf]
      exact ih files
  refine ⟨hrm, ?_⟩
  simp [handleRemoveEvent, hrm]

/-! ## Dependency graph (symbols source)

`imports` is `map[string]map[string]struct{}` and `importedBy` is
`map[string]map[string]string`. The outer Go maps are modelled as total
functions whose default is the zero value (the empty inner map): the
embedded operations observe the outer maps only through lookups with that
default, so presence checks followed by initialisation collapse to plain
updates. The inner maps are association lists, duplicate-free by
construction, so the `len(...) == 0` test of the Go code is observable. -/

/-- Inner set insertion, `m[k] = struct{}{}` on `map[string]struct{}`. -/
def setInsert (s : List String) (k : String) : List String :=
  if k ∈ s then s else s ++ [k]

/-- Inner map insertion, `m[k] = v` on `map[string]string`. -/
def alInsert (m : List (String × String)) (k v : String) :
    List (String × String) :=
  (k, v) :: m.filter (fun p => ¬ p.1 = k)

/-- Inner map deletion, `delete(m, k)` on `map[string]string`. -/
def alDelete (m : List (String × String)) (k : String) :
    List (String × String) :=
  m.filter (fun p => ¬ p.1 = k)

/-- Key list of an inner `map[string]string`. -/
def alKeys (m : List (String × String)) : List String := m.map (·.1)

/-- Pointwise update of an outer map modelled as a function. -/
def fupd {α : Type} (m : String → α) (k : String) (v : α) : String → α :=
  fun x => if x = k then v else m x

/-- Embedding of `DependencyGraph` (symbols source). The `processing`
field and the mutex are omitted: no embedded operation touches them. -/
structure DependencyGraph where
  imports : String → List String
  importedBy : String → List (String × String)

/-- Embedding of `NewDependencyGraph`: both maps empty. -/
def NewDependencyGraph : DependencyGraph :=
  ⟨fun _ => [], fun _ => []⟩

/-- Embedding of `DependencyGraph.AddDependency`: record that
`importerPath` imports `importedPath`, tagging the reverse edge with the
empty string. -/
def AddDependency (dg : DependencyGraph) (importerPath importedPath : String) :
    DependencyGraph :=
  { imports :=
      fupd dg.imports importerPath (setInsert (dg.imports importerPath) importedPath),
    importedBy :=
      fupd dg.importedBy importedPath
        (alInsert (dg.importedBy importedPath) importerPath "") }

/-- Embedding of `DependencyGraph.AddLibraryDependency`: as
`AddDependency` but the reverse edge carries the library identifier. -/
def AddLibraryDependency (dg : DependencyGraph)
    (importerPath importedPath library : String) : DependencyGraph :=
  { imports :=
      fupd dg.imports importerPath (setInsert (dg.imports importerPath) importedPath),
    importedBy :=
      fupd dg.importedBy importedPath
        (alInsert (dg.importedBy importedPath) importerPath library) }

/-- One iteration of the removal loop of `RemoveDependenciesForFile`:
`delete(dg.importedBy[importedPath], path)` followed by the emptiness
cleanup of the outer entry. -/
def removeStep (path : String) (ib : String → List (String × String))
    (importedPath : String) : String → List (String × String) :=
  let inner := alDelete (ib importedPath) path
  if inner.length = 0 then fupd ib importedPath []
  else fupd ib importedPath inner

/-- Embedding of `DependencyGraph.RemoveDependenciesForFile`: drop the
outgoing edges of `path` (removing `path` from each imported file's
reverse entry, cleaning up empty entries), then drop the reverse entry of
`path` itself. -/
def RemoveDependenciesForFile (dg : DependencyGraph) (path : String) :
    DependencyGraph :=
  let dg1 :=
    if (dg.imports path).length = 0 then dg
    else
      { imports := fupd dg.imports path [],
        importedBy := (dg.imports path).foldl (removeStep path) dg.importedBy }
  { imports := dg1.imports, importedBy := fupd dg1.importedBy path [] }

/-- A dependency-graph operation, for quantifying over histories. -/
inductive DepOp where
  | add (importer imported : String)
  | addLib (importer imported tag : String)
  | remove (path : String)

/-- Apply one operation. -/
def applyDepOp (dg : DependencyGraph) : DepOp → DependencyGraph
  | .add a b => AddDependency dg a b
  | .addLib a b t => AddLibraryDependency dg a b t
  | .remove p => RemoveDependenciesForFile dg p

/-- Run a history of operations from the empty graph. -/
def runDepOps (ops : List DepOp) : DependencyGraph :=
  ops.foldl applyDepOp NewDependencyGraph

/-- The one-directional dependency-graph invariant: every recorded reverse
edge has a matching forward edge. -/
def DepInv (dg : DependencyGraph) : Prop :=
  ∀ a b : String, a ∈ alKeys (dg.importedBy b) → b ∈ dg.imports a

theorem setInsert_mem {s : List String} {k x : String} :
    x ∈ setInsert s k ↔ x ∈ s ∨ x = k := by
  by_cases h : k ∈ s
  · simp only [setInsert, if_pos h]
    constructor
    · exact Or.inl
    · rintro (hx | rfl) <;> [exact hx; exact h]
  · simp [setInsert, if_neg h]

theorem alKeys_alInsert {m : List (String × String)} {k v x : String} :
    x ∈ alKeys (alInsert m k v) ↔ x = k ∨ (x ∈ alKeys m ∧ ¬ x = k) := by
  simp only [alKeys, alInsert, List.map_cons, List.mem_cons, List.mem_map,
    List.mem_filter]
  constructor
  · rintro (rfl | ⟨p, ⟨hp, hk⟩, rfl⟩)
    · exact Or.inl rfl
    · exact Or.inr ⟨⟨p, hp, rfl⟩, by simpa using hk⟩
  · rintro (rfl | ⟨⟨p, hp, rfl⟩, hne⟩)
    · exact Or.inl rfl
    · exact Or.inr ⟨p, ⟨hp, by simpa using hne⟩, rfl⟩

theorem alKeys_alDelete {m : List (String × String)} {k x : String} :
    x ∈ alKeys (alDelete m k) ↔ x ∈ alKeys m ∧ ¬ x = k := by
  simp only [alKeys, alDelete, List.mem_map, List.mem_filter]
  constructor
  · rintro ⟨p, ⟨hp, hk⟩, rfl⟩
    exact ⟨⟨p, hp, rfl⟩, by simpa using hk⟩
  · rintro ⟨⟨p, hp, rfl⟩, hne⟩
    exact ⟨p, ⟨hp, by simpa using hne⟩, rfl⟩

theorem alDelete_idem (m : List (String × String)) (k : String) :
    alDelete (alDelete m k) k = alDelete m k := by
  simp [alDelete, List.filter_filter]

/-- The removal fold rewrites each reverse entry of a member of `s` by
deleting `path` from it (idempotently for duplicate members) and leaves
every other entry alone. -/
theorem removeFold_apply (path : String) (s : List String)
    (ib : String → List (String × String)) (b : String) :
    (s.foldl (removeStep path) ib) b =
      if b ∈ s then alDelete (ib b) path else ib b := by
  induction s generalizing ib with
  | nil => simp
  | cons ip rest ih =>
    simp only [List.foldl_cons]
    rw [ih]
    have hstep : removeStep path ib ip b =
        if b = ip then alDelete (ib ip) path else ib b := by
      simp only [removeStep]
      by_cases hlen : (alDelete (ib ip) path).length = 0
      · rw [if_pos hlen]
        simp only [fupd]
        by_cases hx : b = ip
        · rw [if_pos hx, if_pos hx]
          rw [List.length_eq_zero] at hlen
          exact hlen.symm
        · rw [if_neg hx, if_neg hx]
      · rw [if_neg hlen]
        simp only [fupd]
    by_cases hb : b ∈ rest
    · rw [if_pos hb, if_pos (List.mem_cons_of_mem ip hb), hstep]
      by_cases hbi : b = ip
      · subst hbi
        rw [if_pos rfl, alDelete_idem]
      · rw [if_neg hbi]
    · rw [if_neg hb, hstep]
      by_cases hbi : b = ip
      · subst hbi
        rw [if_pos rfl, if_pos (List.mem_cons_self b rest)]
      · rw [if_neg hbi, if_neg (by simp [hbi, hb])]

theorem depInv_add (dg : DependencyGraph) (x y tag : String)
    (h : DepInv dg) :
    DepInv { imports := fupd dg.imports x (setInsert (dg.imports x) y),
             importedBy := fupd dg.importedBy y
               (alInsert (dg.importedBy y) x tag) } := by
  intro a b hab
  simp only [fupd] at hab ⊢
  by_cases hby : b = y
  · subst hby
    rw [if_pos rfl] at hab
    rcases alKeys_alInsert.mp hab with rfl | ⟨hmem, _⟩
    · rw [if_pos rfl]
      exact setInsert_mem.mpr (Or.inr rfl)
    · have := h a b hmem
      by_cases hax : a = x
      · rw [if_pos hax]
        exact setInsert_mem.mpr (Or.inl (hax ▸ this))
      · rw [if_neg hax]; exact this
  · rw [if_neg hby] at hab
    have := h a b hab
    by_cases hax : a = x
    · rw [if_pos hax]
      exact setInsert_mem.mpr (Or.inl (hax ▸ this))
    · rw [if_neg hax]; exact this

theorem depInv_remove (dg : DependencyGraph) (p : String) (h : DepInv dg) :
    DepInv (RemoveDependenciesForFile dg p) := by
  intro a b hab
  simp only [RemoveDependenciesForFile] at hab ⊢
  by_cases hemp : (dg.imports p).length = 0
  · simp only [if_pos hemp] at hab ⊢
    simp only [fupd] at hab ⊢
    by_cases hbp : b = p
    · rw [if_pos hbp] at hab
      simp [alKeys] at hab
    · rw [if_neg hbp] at hab
      exact h a b hab
  · simp only [if_neg hemp] at hab ⊢
    simp only [fupd] at hab ⊢
    by_cases hbp : b = p
    · rw [if_pos hbp] at hab
      simp [alKeys] at hab
    · rw [if_neg hbp] at hab
      rw [removeFold_apply] at hab
      by_cases hbs : b ∈ dg.imports p
      · rw [if_pos hbs] at hab
        rcases alKeys_alDelete.mp hab with ⟨hmem, hne⟩
        have := h a b hmem
        rw [if_neg (by intro hap; exact hne (hap ▸ rfl) )]
        exact this
      · rw [if_neg hbs] at hab
        have := h a b hab
        by_cases hap : a = p
        · subst hap
          exact absurd this hbs
        · rw [if_neg hap]; exact this

/-- Claim C2, counterexample: after `AddDependency("a","b")` followed by
`RemoveDependenciesForFile("b")`, the forward edge a→b is still recorded
in `imports` but the reverse entry of "b" is gone, so the claimed
equivalence fails. -/
theorem depGraph_lockstep_counterexample :
    "b" ∈ (runDepOps [.add "a" "b", .remove "b"]).imports "a" ∧
      ¬ "a" ∈ alKeys ((runDepOps [.add "a" "b", .remove "b"]).importedBy "b") := by
  constructor
  · decide
  · decide

/-- Every operation preserves the one-directional invariant along a fold. -/
theorem depInv_runFold (ops : List DepOp) :
    ∀ dg, DepInv dg → DepInv (ops.foldl applyDepOp dg) := by
  induction ops with
  | nil => intro dg hdg; exact hdg
  | cons op rest ih =>
    intro dg hdg
    simp only [List.foldl_cons]
    apply ih
    cases op with
    | add x y => exact depInv_add dg x y "" hdg
    | addLib x y t => exact depInv_add dg x y t hdg
    | remove p => exact depInv_remove dg p hdg

/-- Claim C2, amended: for every operation history from the empty graph
only the right-to-left half of the claimed equivalence holds — whenever
`a ∈ keys(importedBy[b])` then `b ∈ imports[a]`. The left-to-right half is
broken by `RemoveDependenciesForFile` on a file that still has importers
(see the counterexample). -/
theorem depGraph_invariant (ops : List DepOp) (a b : String)
    (h : a ∈ alKeys ((runDepOps ops).importedBy b)) :
    b ∈ (runDepOps ops).imports a := by
  have hbase : DepInv NewDependencyGraph := by
    intro x y hxy
    simp [NewDependencyGraph, alKeys] at hxy
  exact depInv_runFold ops NewDependencyGraph hbase a b h

/-- Claim C2, witness for the amended invariant at a concrete history:
after `AddDependency("a","b")` the reverse edge exists, and the invariant
gives the forward edge. -/
theorem depGraph_invariant_witness :
    "a" ∈ alKeys ((runDepOps [.add "a" "b"]).importedBy "b") ∧
      "b" ∈ (runDepOps [.add "a" "b"]).imports "a" :=
  ⟨by decide, depGraph_invariant [.add "a" "b"] "a" "b" (by decide)⟩

/-! ## Text model

Go strings holding valid UTF-8 are modelled as `List Char`; Go byte
lengths and byte offsets are recovered from the UTF-8 width of each
scalar value, exactly the widths `utf8.DecodeRuneInString` reports. -/

/-- UTF-8 byte width of a scalar value, as Go reports it. -/
def charWidth (c : Char) : Nat :=
  if c.val.toNat < 0x80 then 1
  else if c.val.toNat < 0x800 then 2
  else if c.val.toNat < 0x10000 then 3
  else 4

/-- Go `len(s)`: the byte length of the text. -/
def byteLen (t : List Char) : Nat := (t.map charWidth).sum

theorem charWidth_pos (c : Char) : 0 < charWidth c := by
  unfold charWidth
  split <;> [decide; skip]
  split <;> [decide; skip]
  split <;> decide

theorem byteLen_append (a b : List Char) :
    byteLen (a ++ b) = byteLen a + byteLen b := by
  simp [byteLen]

theorem byteLen_eq_zero {a : List Char} (h : byteLen a = 0) : a = [] := by
  cases a with
  | nil => rfl
  | cons c rest =>
    exfalso
    have := charWidth_pos c
    simp [byteLen] at h
    omega

/-! ## Compiler diagnostics (compiler source)

`getCompilerDiagnostics` runs the external compiler; the subprocess is out
of scope, so the embedding takes the observable outcome of `cmd.Run()`
(whether it returned a nil error) and the captured stderr. A Go panic in
`parseFileError` / `parseError` is modelled as `Except.error`. -/

/-- LSP diagnostic record (`transport.Diagnostic`), restricted to the
fields `getCompilerDiagnostics` populates. -/
structure Diagnostic where
  range : Range
  message : String
  severity : Nat
  source : String
deriving DecidableEq, Repr

/-- The Go zero value `transport.Diagnostic{}`. -/
def emptyDiagnostic : Diagnostic :=
  ⟨⟨⟨0, 0⟩, ⟨0, 0⟩⟩, "", 0, ""⟩

/-- Embedding of `FaustError`. -/
structure FaustError where
  file : String
  line : Int
  message : String
deriving DecidableEq, Repr

/-- Embedding of `FaustErrorReportingType` with its three classification
values. -/
inductive FaustErrorReportingType where
  | FileError
  | Error
  | NullError
deriving DecidableEq, Repr

/-- Embedding of `getFaustErrorReportingType`: byte length below five is
unrecognised, a stderr whose first five bytes spell ERROR is a generic
error, anything else is treated as a file error. -/
def getFaustErrorReportingType (s : List Char) : FaustErrorReportingType :=
  if byteLen s < 5 then .NullError
  else if s.take 5 = ['E', 'R', 'R', 'O', 'R'] then .Error
  else .FileError

/-- Go regexp `\s`: the RE2 Perl whitespace class. -/
def isSpaceGo (c : Char) : Bool :=
  c = ' ' || c = '\t' || c = '\n' || c = '\x0c' || c = '\r'

/-- Character class `[-\d]` of the file-error pattern. -/
def isDigitDash (c : Char) : Bool :=
  c = '-' || (decide ('0' ≤ c) && decide (c ≤ '9'))

/-- Matches `\s:\s` at the head and yields the rest (the trailing `(.*)`
capture of the generic-error pattern). -/
def errorTail : List Char → Option (List Char)
  | w1 :: ':' :: w2 :: rest =>
    if isSpaceGo w1 && isSpaceGo w2 then some rest else none
  | _ => none

/-- Matches `ERROR\s:\s` at the head and yields the message capture. -/
def errorAt : List Char → Option (List Char)
  | 'E' :: 'R' :: 'R' :: 'O' :: 'R' :: rest => errorTail rest
  | _ => none

/-- Leftmost match of the unanchored generic-error pattern
`(?s)ERROR\s:\s(.*)`, yielding its capture. -/
def findErrorCapture : List Char → Option (List Char)
  | [] => none
  | c :: rest =>
    match errorAt (c :: rest) with
    | some cap => some cap
    | none => findErrorCapture rest

/-- Whether stderr matches the generic-error pattern at all. -/
def matchesErrorForm (s : List Char) : Bool := (findErrorCapture s).isSome

/-- Matches `\s:\sERROR\s:\s` at the head and yields the message capture. -/
def afterDigitsTail : List Char → Option (List Char)
  | w1 :: ':' :: w2 :: 'E' :: 'R' :: 'R' :: 'O' :: 'R' :: w3 :: ':' :: w4 :: rest =>
    if isSpaceGo w1 && isSpaceGo w2 && isSpaceGo w3 && isSpaceGo w4 then some rest
    else none
  | _ => none

/-- Matches `:([-\d]+)\s:\sERROR\s:\s(.*)` at the head, yielding the digit
capture and the message capture. The digit run is maximal, which is the
only run the pattern can accept because `[-\d]` and `\s` are disjoint. -/
def fileErrAt : List Char → Option (List Char × List Char)
  | ':' :: rest =>
    let ds := rest.takeWhile isDigitDash
    if ds.isEmpty then none
    else
      match afterDigitsTail (rest.dropWhile isDigitDash) with
      | some cap => some (ds, cap)
      | none => none
  | _ => none

/-- All decompositions of stderr against the file-error pattern
`(?s)(.+):([-\d]+)\s:\sERROR\s:\s(.*)`: positions of a colon preceded by
at least one character whose tail completes the pattern, in order of
growing `(.+)` capture. -/
def fileErrCandidates (s : List Char) :
    List (List Char × List Char × List Char) :=
  (List.range s.length).filterMap (fun i =>
    match fileErrAt (s.drop (i + 1)) with
    | some (ds, cap) => some (s.take (i + 1), ds, cap)
    | none => none)

/-- Whether stderr matches the file-error pattern at all. -/
def matchesFileErrorForm (s : List Char) : Bool :=
  !(fileErrCandidates s).isEmpty

/-- Embedding of `strconv.Atoi` as used on the digit capture: optional
sign, decimal digits, int64 clamping on range error; the error itself is
discarded by the caller, leaving zero for malformed input and the clamped
boundary for out-of-range input. -/
def goAtoiLoose (ds : List Char) : Int :=
  let signed : Bool × List Char :=
    match ds with
    | '-' :: rest => (true, rest)
    | '+' :: rest => (false, rest)
    | _ => (false, ds)
  let digits := signed.2
  if digits.isEmpty ∨ digits.any (fun c => !(decide ('0' ≤ c) && decide (c ≤ '9'))) then 0
  else
    let v : Nat := digits.foldl (fun acc c => acc * 10 + (c.toNat - '0'.toNat)) 0
    if signed.1 then
      if (9223372036854775808 : Int) < (v : Int) then -9223372036854775808 else -(v : Int)
    else
      if (9223372036854775807 : Int) < (v : Int) then 9223372036854775807 else (v : Int)

/-- Embedding of `parseFileError`: the RE2 match is leftmost (hence starts
at offset zero) with a greedy `(.+)`, so the last candidate decomposition
wins; absence of a match panics. -/
def parseFileError (s : List Char) : Except String FaustError :=
  match (fileErrCandidates s).getLast? with
  | some (file, ds, cap) =>
    .ok { file := String.mk file, line := goAtoiLoose ds, message := String.mk cap }
  | none => .error "Expected 4 values"

/-- Embedding of `parseError`: leftmost match of the generic pattern;
absence of a match panics. -/
def parseError (s : List Char) : Except String FaustError :=
  match findErrorCapture s with
  | some cap => .ok { file := "", line := 0, message := String.mk cap }
  | none => .error "Expected 2 values"

/-- Go `uint32(i)` on an `int`. -/
def uint32OfInt (i : Int) : Nat := (i % 4294967296).toNat

/-- Embedding of `getCompilerDiagnostics`, parameterised by the observable
outcome of the compiler subprocess: whether `cmd.Run()` returned nil and
what stderr held. LSP severity Error is 1. -/
def getCompilerDiagnostics (cmdSucceeded : Bool) (stderr : List Char) :
    Except String Diagnostic :=
  if cmdSucceeded then .ok emptyDiagnostic
  else
    match getFaustErrorReportingType stderr with
    | .FileError =>
      match parseFileError stderr with
      | .error e => .error e
      | .ok fe =>
        let line1 := if 0 < fe.line then fe.line - 1 else fe.line
        let line2 := if line1 = -1 then 0 else line1
        .ok { range := ⟨⟨uint32OfInt line2, 0⟩, ⟨uint32OfInt line2, 2147483647⟩⟩,
              message := fe.message, severity := 1, source := "faust" }
    | .Error =>
      match parseError stderr with
      | .error e => .error e
      | .ok fe =>
        .ok { range := ⟨⟨0, 0⟩, ⟨0, 0⟩⟩, message := fe.message,
              severity := 1, source := "faust" }
    | .NullError => .ok emptyDiagnostic

/-- Whether the embedded run ended in a Go panic. -/
def isPanic (r : Except String Diagnostic) : Bool :=
  match r with
  | .error _ => true
  | .ok _ => false

theorem findErrorCapture_none_of_not_matches {s : List Char}
    (h : matchesErrorForm s = false) : findErrorCapture s = none := by
  unfold matchesErrorForm at h
  cases hfc : findErrorCapture s with
  | none => rfl
  | some cap => rw [hfc] at h; simp at h

theorem fileErrCandidates_nil_of_not_matches {s : List Char}
    (h : matchesFileErrorForm s = false) : fileErrCandidates s = [] := by
  unfold matchesFileErrorForm at h
  cases hfc : fileErrCandidates s with
  | nil => rfl
  | cons a rest => rw [hfc] at h; simp at h

/-- Claim C7, counterexample: with a failing compiler run whose stderr is
"hello" — five bytes matching neither error pattern — the Go code panics
inside `parseFileError` instead of returning normally with no
diagnostic. -/
theorem getCompilerDiagnostics_counterexample :
    isPanic (getCompilerDiagnostics false ['h', 'e', 'l', 'l', 'o']) = true ∧
      matchesFileErrorForm ['h', 'e', 'l', 'l', 'o'] = false ∧
      matchesErrorForm ['h', 'e', 'l', 'l', 'o'] = false := by
  refine ⟨?_, ?_, ?_⟩ <;> decide

/-- Claim C7, amended: a zero return code produces no diagnostic (the
empty `Diagnostic`); stderr matching neither pattern produces no
diagnostic only when it is shorter than five bytes, and makes the call
panic otherwise. -/
theorem getCompilerDiagnostics_spec (stderr : List Char) :
    getCompilerDiagnostics true stderr = .ok emptyDiagnostic ∧
      (byteLen stderr < 5 →
        getCompilerDiagnostics false stderr = .ok emptyDiagnostic) ∧
      (5 ≤ byteLen stderr → matchesFileErrorForm stderr = false →
        matchesErrorForm stderr = false →
        isPanic (getCompilerDiagnostics false stderr) = true) := by
  refine ⟨rfl, ?_, ?_⟩
  · intro hlen
    simp [getCompilerDiagnostics, getFaustErrorReportingType, hlen]
  · intro hlen hfile herr
    have hnotlt : ¬ byteLen stderr < 5 := by omega
    unfold getCompilerDiagnostics getFaustErrorReportingType
    rw [if_neg (by decide), if_neg hnotlt]
    by_cases htake : stderr.take 5 = ['E', 'R', 'R', 'O', 'R']
    · rw [if_pos htake]
      simp only [parseError, findErrorCapture_none_of_not_matches herr]
      rfl
    · rw [if_neg htake]
      simp only [parseFileError, fileErrCandidates_nil_of_not_matches hfile]
      rfl

/-- Claim C7, witness for the amended statement at the concrete stderr
"hello" of a failing run, and at an arbitrary stderr of a succeeding
run. -/
theorem getCompilerDiagnostics_spec_witness :
    getCompilerDiagnostics true ['h', 'e', 'l', 'l', 'o'] = .ok emptyDiagnostic ∧
      isPanic (getCompilerDiagnostics false ['h', 'e', 'l', 'l', 'o']) = true :=
  ⟨(getCompilerDiagnostics_spec ['h', 'e', 'l', 'l', 'o']).1,
   (getCompilerDiagnostics_spec ['h', 'e', 'l', 'l', 'o']).2.2 (by decide)
     (by decide) (by decide)⟩

/-! ## Position codec (incremental source)

`PositionToOffset`, `OffsetToPosition` and `GetLineIndices` decode runes
with `utf8.DecodeRuneInString`, always starting from rune boundaries, so
the `List Char` text model reproduces every byte offset they can touch;
byte offsets that fall inside a rune remain representable as plain
numbers. The encoding argument is the negotiated encoding string. -/

/-- Code units a scalar contributes under the encoding: two for a
supplementary-plane scalar in utf-16, one otherwise. -/
def charUnits (enc : String) (c : Char) : Nat :=
  if enc = "utf-16" ∧ 0x10000 ≤ c.val.toNat then 2 else 1

/-- Total code units of a text under the encoding. -/
def unitsLen (enc : String) (t : List Char) : Nat :=
  (t.map (charUnits enc)).sum

/-- Embedding of `GetLineIndices`: byte positions that start each line —
zero, then one past every newline byte. -/
def getLineIndicesAux : List Char → Nat → List Nat
  | [], _ => []
  | c :: cs, i =>
    if c = '\n' then (i + 1) :: getLineIndicesAux cs (i + charWidth c)
    else getLineIndicesAux cs (i + charWidth c)

/-- Embedding of `GetLineIndices`. -/
def GetLineIndices (t : List Char) : List Nat := 0 :: getLineIndicesAux t 0

/-- Suffix of the text from a byte offset; only reached at rune
boundaries, where it drops exactly the runes before the offset. -/
def dropBytes : List Char → Nat → List Char
  | [], _ => []
  | c :: cs, b => if b = 0 then c :: cs else dropBytes cs (b - charWidth c)

/-- The character-advance loop of `PositionToOffset`: starting from byte
offset `currChar` whose suffix is `cs`, consume runes until `character`
code units are counted, the extra utf-16 unit of a supplementary-plane
rune included, stopping early at end of text. -/
def ptoLoop (enc : String) : List Char → Nat → Nat → Nat → Nat
  | [], currChar, _, _ => currChar
  | c :: rest, currChar, i, character =>
    if i < character then
      if enc = "utf-16" ∧ 0x10000 ≤ c.val.toNat then
        if i + 1 = character then currChar + charWidth c
        else ptoLoop enc rest (currChar + charWidth c) (i + 2) character
      else ptoLoop enc rest (currChar + charWidth c) (i + 1) character
    else currChar

/-- Embedding of `PositionToOffset` (incremental source): empty text maps
to zero; a line number past the index list errors; the line number equal
to the index count denotes end of file; otherwise advance from the line
start. -/
def PositionToOffset (pos : Position) (t : List Char) (enc : String) :
    Except String Nat :=
  if t = [] then .ok 0
  else if (GetLineIndices t).length < pos.line then .error "invalid Line Number"
  else if pos.line = (GetLineIndices t).length then .ok (byteLen t)
  else
    .ok (ptoLoop enc (dropBytes t ((GetLineIndices t).getD pos.line 0))
      ((GetLineIndices t).getD pos.line 0) 0 pos.character)

/-- The scan loop of `OffsetToPosition`: walk runes whose byte index is
below `offset`, tracking line and character counters. -/
def otpLoop (enc : String) (offset : Nat) : List Char → Nat → Nat → Nat → Position
  | [], _, line, char => ⟨line, char⟩
  | c :: cs, i, line, char =>
    if i < offset then
      if c = '\n' then otpLoop enc offset cs (i + charWidth c) (line + 1) 0
      else
        otpLoop enc offset cs (i + charWidth c) line (char + charUnits enc c)
    else ⟨line, char⟩

/-- Embedding of `OffsetToPosition` (incremental source). The Go function
always returns a nil error, so the embedding returns the position
directly. -/
def OffsetToPosition (offset : Nat) (t : List Char) (enc : String) : Position :=
  if t = [] ∨ offset = 0 then ⟨0, 0⟩
  else otpLoop enc offset t 0 0 0

/-- Claim C4, counterexample: for the one-rune text "é" (two bytes) and
the in-range byte offset 1, which falls inside the rune, the round trip
returns 2, not 1. -/
theorem positionCodec_roundTrip_counterexample :
    byteLen ['é'] = 2 ∧
      OffsetToPosition 1 ['é'] "utf-32" = ⟨0, 1⟩ ∧
      PositionToOffset ⟨0, 1⟩ ['é'] "utf-32" = .ok 2 := by
  refine ⟨by decide, by decide, rfl⟩

/-- Claim C5, counterexample: in the text "ab\ncd" the position (0,4) has
a character count past line 0 (two code units), yet `PositionToOffset`
returns 4 — beyond byte 3 where line 1 starts — instead of the end of
line 0 at byte 2. -/
theorem positionToOffset_clamp_counterexample :
    PositionToOffset ⟨0, 4⟩ ['a', 'b', '\n', 'c', 'd'] "utf-32" = .ok 4 ∧
      (GetLineIndices ['a', 'b', '\n', 'c', 'd']).getD 1 0 = 3 ∧
      unitsLen "utf-32" ['a', 'b'] = 2 := by
  refine ⟨rfl, by decide, by decide⟩

/-! ### Round-trip and clamping lemmas for the position codec -/

theorem charUnits_pos (enc : String) (c : Char) : 0 < charUnits enc c := by
  unfold charUnits
  split <;> decide

theorem unitsLen_cons (enc : String) (c : Char) (l : List Char) :
    unitsLen enc (c :: l) = charUnits enc c + unitsLen enc l := by
  simp [unitsLen]

theorem byteLen_cons (c : Char) (l : List Char) :
    byteLen (c :: l) = charWidth c + byteLen l := by
  simp [byteLen]

/-- `ptoLoop` started `unitsLen` code units short of its target advances
exactly over the given prefix. -/
theorem ptoLoop_exact (enc : String) (v : List Char) :
    ∀ rest curr i, ptoLoop enc (v ++ rest) curr i (i + unitsLen enc v) =
      curr + byteLen v := by
  induction v with
  | nil =>
    intro rest curr i
    cases rest with
    | nil => simp [ptoLoop, byteLen]
    | cons c cs => simp [ptoLoop, unitsLen, byteLen]
  | cons c v ih =>
    intro rest curr i
    rw [unitsLen_cons, byteLen_cons]
    show ptoLoop enc (c :: (v ++ rest)) curr i (i + (charUnits enc c + unitsLen enc v)) = _
    rw [ptoLoop]
    have hlt : i < i + (charUnits enc c + unitsLen enc v) := by
      have := charUnits_pos enc c
      omega
    rw [if_pos hlt]
    by_cases hsur : enc = "utf-16" ∧ 0x10000 ≤ c.val.toNat
    · rw [if_pos hsur]
      have hcu : charUnits enc c = 2 := by simp [charUnits, hsur]
      rw [hcu]
      have hbreak : ¬ i + 1 = i + (2 + unitsLen enc v) := by omega
      rw [if_neg hbreak]
      have harg : i + (2 + unitsLen enc v) = (i + 2) + unitsLen enc v := by omega
      rw [harg, ih rest (curr + charWidth c) (i + 2)]
      omega
    · rw [if_neg hsur]
      have hcu : charUnits enc c = 1 := by simp [charUnits, hsur]
      rw [hcu]
      have harg : i + (1 + unitsLen enc v) = (i + 1) + unitsLen enc v := by omega
      rw [harg, ih rest (curr + charWidth c) (i + 1)]
      omega

/-- `ptoLoop` whose target is at least the code units of the whole suffix
consumes the suffix entirely: the result clamps to end of text. -/
theorem ptoLoop_overrun (enc : String) (cs : List Char) :
    ∀ curr i character, i + unitsLen enc cs ≤ character →
      ptoLoop enc cs curr i character = curr + byteLen cs := by
  induction cs with
  | nil =>
    intro curr i character _
    simp [ptoLoop, byteLen]
  | cons c cs ih =>
    intro curr i character h
    rw [unitsLen_cons] at h
    rw [byteLen_cons, ptoLoop]
    have hcu := charUnits_pos enc c
    have hlt : i < character := by omega
    rw [if_pos hlt]
    by_cases hsur : enc = "utf-16" ∧ 0x10000 ≤ c.val.toNat
    · rw [if_pos hsur]
      have hc2 : charUnits enc c = 2 := by simp [charUnits, hsur]
      rw [hc2] at h
      have hbreak : ¬ i + 1 = character := by omega
      rw [if_neg hbreak, ih (curr + charWidth c) (i + 2) character (by omega)]
      omega
    · rw [if_neg hsur]
      have hc1 : charUnits enc c = 1 := by simp [charUnits, hsur]
      rw [hc1] at h
      rw [ih (curr + charWidth c) (i + 1) character (by omega)]
      omega

theorem dropBytes_zero (t : List Char) : dropBytes t 0 = t := by
  cases t <;> simp [dropBytes]

theorem dropBytes_append (a b : List Char) :
    dropBytes (a ++ b) (byteLen a) = b := by
  induction a with
  | nil => simpa [byteLen] using dropBytes_zero b
  | cons c a ih =>
    rw [byteLen_cons]
    show dropBytes (c :: (a ++ b)) (charWidth c + byteLen a) = b
    rw [dropBytes]
    have := charWidth_pos c
    rw [if_neg (by omega)]
    have : charWidth c + byteLen a - charWidth c = byteLen a := by omega
    rw [this, ih]

/-- Newline count of a text. -/
def nlCount (l : List Char) : Nat := l.countP (fun c => c = '\n')

theorem nlCount_append (a b : List Char) :
    nlCount (a ++ b) = nlCount a + nlCount b := by
  simp [nlCount, List.countP_append]

theorem getLineIndicesAux_length (t : List Char) :
    ∀ i, (getLineIndicesAux t i).length = nlCount t := by
  induction t with
  | nil => intro i; simp [getLineIndicesAux, nlCount]
  | cons c cs ih =>
    intro i
    by_cases h : c = '\n' <;>
      simp [getLineIndicesAux, h, nlCount, List.countP_cons, ih]

theorem getLineIndices_length (t : List Char) :
    (GetLineIndices t).length = nlCount t + 1 := by
  simp [GetLineIndices, getLineIndicesAux_length]

/-- Every line-start index is the byte length of a prefix of the text. -/
theorem getLineIndicesAux_mem (t : List Char) :
    ∀ i x, x ∈ getLineIndicesAux t i →
      ∃ k, k ≤ t.length ∧ x = i + byteLen (t.take k) := by
  induction t with
  | nil => intro i x hx; simp [getLineIndicesAux] at hx
  | cons c cs ih =>
    intro i x hx
    by_cases h : c = '\n'
    · rw [getLineIndicesAux, if_pos h] at hx
      rcases List.mem_cons.mp hx with rfl | hx
      · refine ⟨1, by simp, ?_⟩
        subst h
        have hw : charWidth '\n' = 1 := by decide
        simp [byteLen, hw]
      · rcases ih (i + charWidth c) x hx with ⟨k, hk, hxv⟩
        refine ⟨k + 1, by simpa using hk, ?_⟩
        rw [List.take_succ_cons, byteLen_cons, hxv]
        omega
    · rw [getLineIndicesAux, if_neg h] at hx
      rcases ih (i + charWidth c) x hx with ⟨k, hk, hxv⟩
      refine ⟨k + 1, by simpa using hk, ?_⟩
      rw [List.take_succ_cons, byteLen_cons, hxv]
      omega

/-- The line-start byte of line `L`, addressed by a decomposition of the
text at a newline (or at the very start). -/
theorem getLineIndices_getD (a : List Char) :
    ∀ b i, (a = [] ∨ a.getLast? = some '\n') →
      (i :: getLineIndicesAux (a ++ b) i).getD (nlCount a) 0 = i + byteLen a := by
  induction a with
  | nil =>
    intro b i _
    simp [nlCount, byteLen]
  | cons c a ih =>
    intro b i hlast
    have hlast' : (c :: a).getLast? = some '\n' := by
      rcases hlast with h | h
      · exact absurd h (by simp)
      · exact h
    by_cases hc : c = '\n'
    · subst hc
      have hrec : a = [] ∨ a.getLast? = some '\n' := by
        cases a with
        | nil => exact Or.inl rfl
        | cons d a' =>
          right
          rw [List.getLast?_cons_cons] at hlast'
          exact hlast'
      have hcount : nlCount ('\n' :: a) = nlCount a + 1 := by
        simp [nlCount, List.countP_cons]
      have hw : charWidth '\n' = 1 := by decide
      have key := ih b (i + 1) hrec
      rw [hcount, List.cons_append, getLineIndicesAux, if_pos rfl,
        List.getD_cons_succ, hw, key, byteLen_cons, hw]
      omega
    · have hane : a ≠ [] := by
        intro h
        subst h
        simp [List.getLast?] at hlast'
        exact hc hlast'
      have hlasta : a.getLast? = some '\n' := by
        cases a with
        | nil => exact absurd rfl hane
        | cons d a' => rw [List.getLast?_cons_cons] at hlast'; exact hlast'
      have hmem : '\n' ∈ a := by
        have hdl := List.dropLast_append_getLast? '\n' hlasta
        rw [← hdl]
        simp
      have hpos : 0 < nlCount a :=
        List.countP_pos_iff.mpr ⟨'\n', hmem, by simp⟩
      have hcount : nlCount (c :: a) = nlCount a := by
        simp [nlCount, List.countP_cons, hc]
      obtain ⟨m, hm⟩ : ∃ m, nlCount a = m + 1 := ⟨nlCount a - 1, by omega⟩
      have key := ih b (i + charWidth c) (Or.inr hlasta)
      rw [hm, List.getD_cons_succ] at key
      rw [hcount, hm, List.cons_append, getLineIndicesAux, if_neg hc,
        List.getD_cons_succ, key, byteLen_cons]
      omega

/-- Claim C5, amended: when the requested character count is at least the
code units remaining from the start of the addressed line to the end of
the text, `PositionToOffset` returns the end-of-text offset — it advances
across newlines into subsequent lines and clamps only at end of text,
never at end of line. -/
theorem positionToOffset_clamps_to_eof (t : List Char) (enc : String)
    (pos : Position)
    (hline : pos.line < (GetLineIndices t).length)
    (hchar : unitsLen enc
        (dropBytes t ((GetLineIndices t).getD pos.line 0)) ≤ pos.character) :
    PositionToOffset pos t enc = .ok (byteLen t) := by
  by_cases ht : t = []
  · subst ht
    simp [PositionToOffset, byteLen]
  · have hstart : ∃ a b, t = a ++ b ∧
        (GetLineIndices t).getD pos.line 0 = byteLen a := by
      rcases Nat.eq_zero_or_pos pos.line with h0 | hposl
      · refine ⟨[], t, rfl, ?_⟩
        rw [h0, GetLineIndices, List.getD_cons_zero]
        simp [byteLen]
      · obtain ⟨L, hL⟩ : ∃ L, pos.line = L + 1 := ⟨pos.line - 1, by omega⟩
        rw [hL, GetLineIndices, List.getD_cons_succ]
        have hlen : L < (getLineIndicesAux t 0).length := by
          rw [GetLineIndices] at hline
          simp only [List.length_cons] at hline
          omega
        have hmem : (getLineIndicesAux t 0).getD L 0 ∈ getLineIndicesAux t 0 := by
          rw [List.getD_eq_getElem (getLineIndicesAux t 0) 0 hlen]
          exact List.getElem_mem hlen
        rcases getLineIndicesAux_mem t 0 _ hmem with ⟨k, hk, hkv⟩
        exact ⟨t.take k, t.drop k, (List.take_append_drop k t).symm,
          by rw [hkv]; omega⟩
    rcases hstart with ⟨a, b, hab, hstartv⟩
    rw [hstartv] at hchar
    unfold PositionToOffset
    rw [if_neg ht, if_neg (by omega), if_neg (by omega), hstartv]
    have hdb : dropBytes t (byteLen a) = b := by
      conv_lhs => rw [hab]
      exact dropBytes_append a b
    rw [hdb] at hchar ⊢
    rw [ptoLoop_overrun enc b (byteLen a) 0 pos.character (by omega)]
    rw [hab, byteLen_append]

/-- Claim C5, witness for the amended statement: in "ab\ncd" the position
(0,100) addresses line 0 with an overlong character count and the offset
clamps to the end of the text, byte 5. -/
theorem positionToOffset_clamps_witness :
    PositionToOffset ⟨0, 100⟩ ['a', 'b', '\n', 'c', 'd'] "utf-32" =
      .ok (byteLen ['a', 'b', '\n', 'c', 'd']) :=
  positionToOffset_clamps_to_eof ['a', 'b', '\n', 'c', 'd'] "utf-32" ⟨0, 100⟩
    (by decide) (by decide)

/-! ### Offset-to-position characterisation -/

/-- One step of the `OffsetToPosition` counter update. -/
def otpStep (enc : String) (s : Nat × Nat) (c : Char) : Nat × Nat :=
  if c = '\n' then (s.1 + 1, 0) else (s.1, s.2 + charUnits enc c)

/-- Line/character counters after scanning a prefix. -/
def otpState (enc : String) (pre : List Char) (s : Nat × Nat) : Nat × Nat :=
  pre.foldl (otpStep enc) s

theorem otpLoop_stop (enc : String) (o : Nat) (cs : List Char)
    (i line char : Nat) (h : o ≤ i) :
    otpLoop enc o cs i line char = ⟨line, char⟩ := by
  cases cs with
  | nil => rfl
  | cons c rest =>
    rw [otpLoop, if_neg (by omega)]

theorem otpLoop_advance (enc : String) (o : Nat) (pre : List Char) :
    ∀ rest i line char, i + byteLen pre ≤ o →
      otpLoop enc o (pre ++ rest) i line char =
        otpLoop enc o rest (i + byteLen pre)
          (otpState enc pre (line, char)).1 (otpState enc pre (line, char)).2 := by
  induction pre with
  | nil =>
    intro rest i line char _
    simp [otpState, byteLen]
  | cons c pre ih =>
    intro rest i line char h
    rw [byteLen_cons] at h ⊢
    have hw := charWidth_pos c
    show otpLoop enc o (c :: (pre ++ rest)) i line char = _
    rw [otpLoop, if_pos (by omega)]
    have hstate : otpState enc (c :: pre) (line, char) =
        otpState enc pre (otpStep enc (line, char) c) := by
      simp [otpState]
    by_cases hc : c = '\n'
    · rw [if_pos hc]
      have hstep : otpStep enc (line, char) c = (line + 1, 0) := by
        simp [otpStep, hc]
      rw [ih rest (i + charWidth c) (line + 1) 0 (by omega), hstate, hstep]
      congr 1
      omega
    · rw [if_neg hc]
      have hstep : otpStep enc (line, char) c = (line, char + charUnits enc c) := by
        simp [otpStep, hc]
      rw [ih rest (i + charWidth c) line (char + charUnits enc c) (by omega),
        hstate, hstep]
      congr 1
      omega

theorem otpState_fst (enc : String) (u : List Char) :
    ∀ l c, (otpState enc u (l, c)).1 = l + nlCount u := by
  induction u with
  | nil => intro l c; simp [otpState, nlCount]
  | cons d u ih =>
    intro l c
    by_cases hd : d = '\n'
    · have : otpState enc (d :: u) (l, c) = otpState enc u (l + 1, 0) := by
        simp [otpState, otpStep, hd]
      rw [this, ih]
      simp only [nlCount, List.countP_cons, hd]
      simp
      omega
    · have : otpState enc (d :: u) (l, c) =
          otpState enc u (l, c + charUnits enc d) := by
        simp [otpState, otpStep, hd]
      rw [this, ih]
      simp only [nlCount, List.countP_cons, hd]
      simp [hd]

theorem otpState_noNL (enc : String) (v : List Char) (hv : '\n' ∉ v) :
    ∀ l c, otpState enc v (l, c) = (l, c + unitsLen enc v) := by
  induction v with
  | nil => intro l c; simp [otpState, unitsLen]
  | cons d v ih =>
    intro l c
    have hd : ¬ d = '\n' := by
      intro h
      exact hv (h ▸ List.mem_cons_self d v)
    have hv' : '\n' ∉ v := fun h => hv (List.mem_cons_of_mem d h)
    have : otpState enc (d :: v) (l, c) =
        otpState enc v (l, c + charUnits enc d) := by
      simp [otpState, otpStep, hd]
    rw [this, ih hv', unitsLen_cons]
    congr 1
    omega

/-- Suffix of a text after its last newline. -/
def afterLastNL (l : List Char) : List Char :=
  (l.reverse.takeWhile (fun c => ¬ c = '\n')).reverse

/-- Prefix of a text up to and including its last newline. -/
def uptoLastNL (l : List Char) : List Char :=
  (l.reverse.dropWhile (fun c => ¬ c = '\n')).reverse

theorem uptoLastNL_append_afterLastNL (l : List Char) :
    uptoLastNL l ++ afterLastNL l = l := by
  unfold uptoLastNL afterLastNL
  rw [← List.reverse_append, List.takeWhile_append_dropWhile,
    List.reverse_reverse]

theorem afterLastNL_noNL (l : List Char) : '\n' ∉ afterLastNL l := by
  intro h
  rw [afterLastNL, List.mem_reverse] at h
  have := List.mem_takeWhile_imp h
  simp at this

theorem dropWhile_head_not (p : Char → Bool) :
    ∀ (l : List Char) (x : Char) (xs : List Char),
      l.dropWhile p = x :: xs → p x = false := by
  intro l
  induction l with
  | nil => intro x xs h; simp [List.dropWhile] at h
  | cons c l' ih =>
    intro x xs h
    rw [List.dropWhile_cons] at h
    by_cases hc : p c
    · rw [if_pos hc] at h
      exact ih x xs h
    · rw [if_neg hc] at h
      cases h
      simpa using hc

theorem uptoLastNL_ends (l : List Char) :
    uptoLastNL l = [] ∨ (uptoLastNL l).getLast? = some '\n' := by
  cases h : l.reverse.dropWhile (fun c => ¬ c = '\n') with
  | nil =>
    left
    rw [uptoLastNL, h]
    rfl
  | cons x xs =>
    right
    rw [uptoLastNL, h, List.getLast?_reverse]
    have hx := dropWhile_head_not (fun c => ¬ c = '\n') l.reverse x xs h
    simp at hx
    rw [List.head?_cons, hx]

/-- Claim C4, amended: the round trip
`PositionToOffset (OffsetToPosition o t enc) t enc = o` holds for every
offset `o` that is a rune boundary of the text — the byte length of some
prefix of runes, end of text included. For in-range offsets that fall
inside a multi-byte rune the round trip lands on the following boundary
instead (see the counterexample). -/
theorem positionCodec_roundTrip (t : List Char) (enc : String) (k : Nat)
    (hk : k ≤ t.length) :
    PositionToOffset (OffsetToPosition (byteLen (t.take k)) t enc) t enc =
      .ok (byteLen (t.take k)) := by
  by_cases ho : byteLen (t.take k) = 0
  · rw [ho]
    have hotp : OffsetToPosition 0 t enc = ⟨0, 0⟩ := by
      simp [OffsetToPosition]
    rw [hotp]
    by_cases ht : t = []
    · subst ht; rfl
    · unfold PositionToOffset
      rw [if_neg ht]
      have hlen := getLineIndices_length t
      have hl0 : (⟨0, 0⟩ : Position).line = 0 := rfl
      have hc0 : (⟨0, 0⟩ : Position).character = 0 := rfl
      rw [if_neg (by rw [hl0]; omega), if_neg (by rw [hl0]; omega)]
      rw [hl0, hc0, GetLineIndices, List.getD_cons_zero, dropBytes_zero]
      have hstop : ptoLoop enc t 0 0 0 = 0 := by
        cases t with
        | nil => rfl
        | cons c cs => rw [ptoLoop, if_neg (by omega)]
      rw [hstop]
  · have ht : t ≠ [] := by
      intro h
      rw [h] at ho
      simp [byteLen] at ho
    have htdecomp : t = t.take k ++ t.drop k := (List.take_append_drop k t).symm
    have hsplit : uptoLastNL (t.take k) ++ afterLastNL (t.take k) = t.take k :=
      uptoLastNL_append_afterLastNL (t.take k)
    have hvnl : '\n' ∉ afterLastNL (t.take k) := afterLastNL_noNL (t.take k)
    have huend := uptoLastNL_ends (t.take k)
    have hvcount : nlCount (afterLastNL (t.take k)) = 0 := by
      rw [nlCount, List.countP_eq_zero]
      intro a ha
      simp only [decide_eq_true_eq]
      intro haeq
      exact hvnl (haeq ▸ ha)
    have hcountu : nlCount (t.take k) = nlCount (uptoLastNL (t.take k)) := by
      conv_lhs => rw [← hsplit]
      rw [nlCount_append, hvcount]
      omega
    have hu0 : otpState enc (uptoLastNL (t.take k)) (0, 0) =
        (nlCount (uptoLastNL (t.take k)), 0) := by
      rcases huend with h | h
      · rw [h]; simp [otpState, nlCount]
      · have hne : uptoLastNL (t.take k) ≠ [] := by
          intro h0
          rw [h0] at h
          simp at h
        have hdecomp := List.dropLast_append_getLast? '\n' h
        conv_lhs => rw [← hdecomp]
        conv_rhs => rw [← hdecomp]
        rw [otpState, List.foldl_append]
        have h1 : ∀ s : Nat × Nat,
            List.foldl (otpStep enc) s ['\n'] = (s.1 + 1, 0) := by
          intro s
          simp [otpStep]
        rw [h1]
        have h2 := otpState_fst enc ((uptoLastNL (t.take k)).dropLast) 0 0
        rw [otpState] at h2
        rw [h2, nlCount_append]
        have h3 : nlCount ['\n'] = 1 := by decide
        rw [h3]
        simp
    have hLC : otpState enc (t.take k) (0, 0) =
        (nlCount (t.take k), unitsLen enc (afterLastNL (t.take k))) := by
      conv_lhs => rw [← hsplit]
      rw [otpState, List.foldl_append, ← otpState, ← otpState, hu0,
        otpState_noNL enc _ hvnl]
      rw [hcountu]
      congr 1
      omega
    have hadv : OffsetToPosition (byteLen (t.take k)) t enc =
        ⟨nlCount (t.take k), unitsLen enc (afterLastNL (t.take k))⟩ := by
      unfold OffsetToPosition
      rw [if_neg (by simp [ht, ho])]
      nth_rewrite 2 [htdecomp]
      rw [otpLoop_advance enc (byteLen (t.take k)) (t.take k) (t.drop k) 0 0 0
        (by omega)]
      rw [otpLoop_stop enc (byteLen (t.take k)) (t.drop k) (0 + byteLen (t.take k))
        _ _ (by omega)]
      rw [hLC]
    rw [hadv]
    have hLle : nlCount (t.take k) ≤ nlCount t := by
      conv_rhs => rw [htdecomp]
      rw [nlCount_append]
      omega
    have hlen := getLineIndices_length t
    unfold PositionToOffset
    rw [if_neg ht]
    rw [if_neg (by simp; omega), if_neg (by simp; omega)]
    have htdecomp2 : t = uptoLastNL (t.take k) ++
        (afterLastNL (t.take k) ++ t.drop k) := by
      rw [← List.append_assoc, hsplit]
      exact htdecomp
    have hgd : (GetLineIndices t).getD (nlCount (t.take k)) 0 =
        byteLen (uptoLastNL (t.take k)) := by
      rw [GetLineIndices, hcountu]
      nth_rewrite 1 [htdecomp2]
      rw [getLineIndices_getD (uptoLastNL (t.take k))
        (afterLastNL (t.take k) ++ t.drop k) 0 huend]
      omega
    simp only
    rw [hgd]
    have hdb : dropBytes t (byteLen (uptoLastNL (t.take k))) =
        afterLastNL (t.take k) ++ t.drop k := by
      nth_rewrite 1 [htdecomp2]
      exact dropBytes_append _ _
    rw [hdb]
    have hpt := ptoLoop_exact enc (afterLastNL (t.take k)) (t.drop k)
      (byteLen (uptoLastNL (t.take k))) 0
    have hch : (0 : Nat) + unitsLen enc (afterLastNL (t.take k)) =
        unitsLen enc (afterLastNL (t.take k)) := by omega
    rw [hch] at hpt
    rw [hpt]
    congr 1
    conv_rhs => rw [← hsplit]
    rw [byteLen_append]

/-- Claim C4, witness for the amended statement: the rune-boundary offset
6 in "a𝄞b\nc" (after the three runes a, 𝄞, b) survives the round trip
under utf-16, the supplementary-plane rune counting two code units. -/
theorem positionCodec_roundTrip_witness :
    3 ≤ (['a', '𝄞', 'b', '\n', 'c'] : List Char).length ∧
      PositionToOffset
        (OffsetToPosition (byteLen (['a', '𝄞', 'b', '\n', 'c'].take 3))
          ['a', '𝄞', 'b', '\n', 'c'] "utf-16")
        ['a', '𝄞', 'b', '\n', 'c'] "utf-16" =
      .ok (byteLen (['a', '𝄞', 'b', '\n', 'c'].take 3)) :=
  ⟨by decide, positionCodec_roundTrip ['a', '𝄞', 'b', '\n', 'c'] "utf-16" 3
    (by decide)⟩

/-! ## Scope / symbol model and resolver (symbols source)

`Scope` carries its parent chain by value, which represents exactly the
pointer chains the resolver walks (`scope.Symbols`, `scope.Parent`, and a
file root scope fetched from the store by path). Cross-file links are
paths into the store, as in the source. The tree-sitter node field `Expr`
and the `Children` field for Case rules are omitted: no embedded function
consults them. The resolver functions recurse across files of the store,
which nothing bounds in the source, so every embedded resolver routine
takes fuel and returns `none` when the computation does not complete
within it; `none` also models the nil-pointer panic noted at
`FindFirstEnvironment`. -/

/-- Embedding of `SymbolKind`. -/
inductive SymbolKind where
  | Identifier
  | Definition
  | Function
  | Case
  | Rule
  | Iteration
  | WithEnvironment
  | LetRecEnvironment
  | Environment
  | Library
  | Import
deriving DecidableEq, Repr

/-- Embedding of `Location`. -/
structure Location where
  file : String
  range : Range
deriving DecidableEq, Repr

/-- Embedding of `Documentation`. -/
structure Documentation where
  full : String
  usage : String
deriving DecidableEq, Repr

/-- Symbol record parameterised by the scope type, mirroring `Symbol`. -/
structure SymbolG (σ : Type) where
  kind : SymbolKind
  loc : Location
  ident : String
  scope : Option σ
  expression : Option σ
  file : String
  docs : Documentation

/-- Embedding of `Scope`: parent link, symbol list, child scopes and the
source range. -/
inductive Scope where
  | mk (parent : Option Scope) (symbols : List (SymbolG Scope))
      (children : List Scope) (range : Range)

/-- A symbol over the scope model. -/
abbrev Symbol := SymbolG Scope

/-- Parent link of a scope. -/
def Scope.parent : Scope → Option Scope
  | .mk p _ _ _ => p

/-- Symbol list of a scope. -/
def Scope.symbols : Scope → List Symbol
  | .mk _ s _ _ => s

/-- Child scopes of a scope. -/
def Scope.children : Scope → List Scope
  | .mk _ _ c _ => c

/-- Source range of a scope. -/
def Scope.scopeRange : Scope → Range
  | .mk _ _ _ r => r

/-- The file store as the resolver observes it: path to the file record's
root-scope pointer (`none` when the file exists but has no scope yet). -/
structure Store where
  files : List (String × Option Scope)

/-- Embedding of `Files.GetFromPath` restricted to the field the resolver
reads: `none` when the path is not in the store, otherwise the record's
`Scope` pointer. -/
def Store.getFromPath (store : Store) (path : String) : Option (Option Scope) :=
  (store.files.find? (fun p => p.1 = path)).map (·.2)

mutual

/-- Embedding of `FindSymbolHelper`: scan the scope's symbols for the
identifier, then descend through `Import` symbols into file root scopes,
then retry in the parent. The `visited` set is threaded exactly as in the
source — created by the caller but never consulted or extended. -/
def FindSymbolHelper : Nat → String → Option Scope → Store → List String →
    Option (Except String Symbol)
  | 0, _, _, _, _ => none
  | fuel + 1, ident, scope, store, visited =>
    match scope with
    | none => some (.error "Invalid scope")
    | some s =>
      match s.symbols.find? (fun sym => sym.ident = ident) with
      | some sym => some (.ok sym)
      | none =>
        match findSymbolImportLoop fuel ident s.symbols store visited with
        | none => none
        | some (some res) => some res
        | some none =>
          match s.parent with
          | some p => FindSymbolHelper fuel ident (some p) store visited
          | none => some (.error "Could not find symbol")
termination_by fuel _ _ _ _ => (fuel, 0)

/-- The import-descent loop of `FindSymbolHelper`: for each `Import`
symbol whose file is in the store, descend into that file's root scope;
a successful find returns early, an error moves to the next symbol. -/
def findSymbolImportLoop : Nat → String → List Symbol → Store → List String →
    Option (Option (Except String Symbol))
  | _, _, [], _, _ => some none
  | fuel, ident, sym :: rest, store, visited =>
    if sym.kind = SymbolKind.Import then
      match store.getFromPath sym.file with
      | some fscope =>
        match FindSymbolHelper fuel ident fscope store visited with
        | none => none
        | some (.ok found) => some (some (.ok found))
        | some (.error _) => findSymbolImportLoop fuel ident rest store visited
      | none => findSymbolImportLoop fuel ident rest store visited
    else findSymbolImportLoop fuel ident rest store visited
termination_by fuel _ syms _ _ => (fuel, syms.length + 1)

end

/-- Embedding of `FindFirstEnvironment`: an `Environment` symbol is
returned as is; a `With`/`LetRec` environment, `Function` or `Definition`
is followed into the first symbol of its expression scope; anything else
fails. The Go loop returns on its first iteration, hence first symbol
only. A nil `Expression` pointer would make the Go code dereference nil
and panic, modelled as `none`. -/
def FindFirstEnvironment : Symbol → Option (Except String Symbol)
  | ⟨kind, loc, ident, scope, expression, file, docs⟩ =>
    match kind with
    | .Environment =>
      some (.ok ⟨kind, loc, ident, scope, expression, file, docs⟩)
    | .WithEnvironment | .LetRecEnvironment | .Function | .Definition =>
      match expression with
      | none => none
      | some (Scope.mk _ esyms _ _) =>
        match esyms with
        | [] => some (.error "Could not find environment in symbol")
        | s :: _ => FindFirstEnvironment s
    | _ => some (.error "Could not find environment in symbol")
termination_by sym => sizeOf sym
decreasing_by
  all_goals
    simp only [SymbolG.mk.sizeOf_spec, Scope.mk.sizeOf_spec,
      Option.some.sizeOf_spec, List.cons.sizeOf_spec]
    omega

mutual

/-- Embedding of `FindEnvironmentHelper`: like `FindSymbolHelper`, but a
name hit is routed through `FindFirstEnvironment` and returned as is,
error included. -/
def FindEnvironmentHelper : Nat → String → Option Scope → Store →
    List String → Option (Except String Symbol)
  | 0, _, _, _, _ => none
  | fuel + 1, ident, scope, store, visited =>
    match scope with
    | none => some (.error "Invalid scope")
    | some s =>
      match s.symbols.find? (fun sym => sym.ident = ident) with
      | some sym => FindFirstEnvironment sym
      | none =>
        match findEnvImportLoop fuel ident s.symbols store visited with
        | none => none
        | some (some res) => some res
        | some none =>
          match s.parent with
          | some p => FindEnvironmentHelper fuel ident (some p) store visited
          | none => some (.error "Could not find symbol")
termination_by fuel _ _ _ _ => (fuel, 0)

/-- The import-descent loop of `FindEnvironmentHelper`. -/
def findEnvImportLoop : Nat → String → List Symbol → Store → List String →
    Option (Option (Except String Symbol))
  | _, _, [], _, _ => some none
  | fuel, ident, sym :: rest, store, visited =>
    if sym.kind = SymbolKind.Import then
      match store.getFromPath sym.file with
      | some fscope =>
        match FindEnvironmentHelper fuel ident fscope store visited with
        | none => none
        | some (.ok found) => some (some (.ok found))
        | some (.error _) => findEnvImportLoop fuel ident rest store visited
      | none => findEnvImportLoop fuel ident rest store visited
    else findEnvImportLoop fuel ident rest store visited
termination_by fuel _ syms _ _ => (fuel, syms.length + 1)

end

mutual

/-- Embedding of `FindLibraryHelper`: scan the scope's symbols for the
identifier and return the matching symbol's `File` field — whatever the
symbol's kind — then descend through imports, then the parent. -/
def FindLibraryHelper : Nat → String → Option Scope → Store → List String →
    Option (Except String String)
  | 0, _, _, _, _ => none
  | fuel + 1, ident, scope, store, visited =>
    match scope with
    | none => some (.error "Invalid scope")
    | some s =>
      match s.symbols.find? (fun sym => sym.ident = ident) with
      | some sym => some (.ok sym.file)
      | none =>
        match findLibImportLoop fuel ident s.symbols store visited with
        | none => none
        | some (some res) => some res
        | some none =>
          match s.parent with
          | some p => FindLibraryHelper fuel ident (some p) store visited
          | none => some (.error "Could not find symbol")
termination_by fuel _ _ _ _ => (fuel, 0)

/-- The import-descent loop of `FindLibraryHelper`. -/
def findLibImportLoop : Nat → String → List Symbol → Store → List String →
    Option (Option (Except String String))
  | _, _, [], _, _ => some none
  | fuel, ident, sym :: rest, store, visited =>
    if sym.kind = SymbolKind.Import then
      match store.getFromPath sym.file with
      | some fscope =>
        match FindLibraryHelper fuel ident fscope store visited with
        | none => none
        | some (.ok found) => some (some (.ok found))
        | some (.error _) => findLibImportLoop fuel ident rest store visited
      | none => findLibImportLoop fuel ident rest store visited
    else findLibImportLoop fuel ident rest store visited
termination_by fuel _ syms _ _ => (fuel, syms.length + 1)

end

/-- Embedding of `FindSymbol`: a fresh empty visited set, then the
helper. -/
def FindSymbol (fuel : Nat) (ident : String) (scope : Option Scope)
    (store : Store) : Option (Except String Symbol) :=
  FindSymbolHelper fuel ident scope store []

/-- Embedding of `FindEnvironmentIdent`. -/
def FindEnvironmentIdent (fuel : Nat) (ident : String) (scope : Option Scope)
    (store : Store) : Option (Except String Symbol) :=
  FindEnvironmentHelper fuel ident scope store []

/-- Embedding of `FindLibraryIdent`. -/
def FindLibraryIdent (fuel : Nat) (ident : String) (scope : Option Scope)
    (store : Store) : Option (Except String String) :=
  FindLibraryHelper fuel ident scope store []

/-- The segment loop of `FindSymbolDefinition` over all segments but the
last: try the segment as an Environment (moving to the found symbol's
scope), else as a Library (moving to the library file's root scope when
the store has the file, breaking on a nil root scope, keeping the current
scope when the file is absent), breaking when neither resolves. An outer
`none` propagates a lookup that did not complete. -/
def segLoop : Nat → List String → Option Scope → Store → Option (Option Scope)
  | _, [], scope, _ => some scope
  | fuel, libIdent :: rest, scope, store =>
    match FindEnvironmentIdent fuel libIdent scope store with
    | none => none
    | some (.ok sym) => segLoop fuel rest sym.scope store
    | some (.error _) =>
      match FindLibraryIdent fuel libIdent scope store with
      | none => none
      | some (.error _) => some scope
      | some (.ok file) =>
        match store.getFromPath file with
        | none => segLoop fuel rest scope store
        | some fscope =>
          match fscope with
          | none => some none
          | some r => segLoop fuel rest (some r) store

/-- Split a character list at every dot. -/
def splitCharsOnDot : List Char → List (List Char)
  | [] => [[]]
  | '.' :: rest => [] :: splitCharsOnDot rest
  | c :: rest =>
    match splitCharsOnDot rest with
    | [] => [[c]]
    | g :: gs => (c :: g) :: gs

/-- Embedding of Go `strings.Split(ident, ".")`: the substrings between
dots, empty pieces included; never the empty list. -/
def stringsSplitDot (ident : String) : List String :=
  (splitCharsOnDot ident.toList).map String.mk

/-- Embedding of `FindSymbolDefinition`: split the dotted identifier,
resolve every segment but the last through the segment loop, then look up
the last segment by name in the scope so reached. The source binds the
split once; it is repeated here in place of a local binding. -/
def FindSymbolDefinition (fuel : Nat) (ident : String) (scope : Option Scope)
    (store : Store) : Option (Except String Symbol) :=
  match (if (stringsSplitDot ident).length > 1
      then segLoop fuel (stringsSplitDot ident).dropLast scope store
      else some scope) with
  | none => none
  | some sc => FindSymbol fuel ((stringsSplitDot ident).getLastD "") sc store

/-- The reference resolution procedure of the specification, stated from
its words: every segment except the last resolves either as an
Environment binding in the current scope chain — preferred when the
Environment lookup succeeds — or as a Library binding, switching the
active scope to the library file's root scope; when a segment resolves as
neither, or a lookup does not complete, or the library file's root scope
is unavailable, the procedure does not resolve (`none`). It reuses the
Environment and Library lookups, which the specification takes as
given. -/
def specResolveSegments : Nat → List String → Option Scope → Store →
    Option (Option Scope)
  | _, [], scope, _ => some scope
  | fuel, seg :: rest, scope, store =>
    match FindEnvironmentIdent fuel seg scope store with
    | none => none
    | some (.ok sym) => specResolveSegments fuel rest sym.scope store
    | some (.error _) =>
      match FindLibraryIdent fuel seg scope store with
      | some (.ok file) =>
        match store.getFromPath file with
        | some (some root) => specResolveSegments fuel rest (some root) store
        | _ => none
      | _ => none

/-- Claim C10: a first name match in the scope makes `FindLibraryHelper`
return that symbol's `File` field with a nil error, whatever the symbol's
kind — a plain `Definition` or `Function` yields its (empty) path instead
of a missing-library error. -/
theorem findLibraryHelper_first_match (fuel : Nat) (ident : String)
    (s : Scope) (store : Store) (visited : List String) (sym : Symbol)
    (h : s.symbols.find? (fun sy => sy.ident = ident) = some sym) :
    FindLibraryHelper (fuel + 1) ident (some s) store visited =
      some (.ok sym.file) := by
  rw [FindLibraryHelper, h]

/-- Concrete scope for the C10 witness: one `Definition` symbol named
"a" whose `File` field is the zero value. -/
def c10Scope : Scope :=
  .mk none [⟨.Definition, ⟨"", ⟨⟨0, 0⟩, ⟨0, 0⟩⟩⟩, "a", none, none, "", ⟨"", ""⟩⟩]
    [] ⟨⟨0, 0⟩, ⟨0, 0⟩⟩

/-- The empty store. -/
def emptyStore : Store := ⟨[]⟩

/-- Claim C10, witness: looking the identifier "a" up as a library in a
scope where "a" is a plain `Definition` succeeds and yields the empty
path. -/
theorem findLibraryHelper_first_match_witness :
    FindLibraryHelper 5 "a" (some c10Scope) emptyStore [] =
      some (.ok "") :=
  findLibraryHelper_first_match 4 "a" c10Scope emptyStore []
    ⟨.Definition, ⟨"", ⟨⟨0, 0⟩, ⟨0, 0⟩⟩⟩, "a", none, none, "", ⟨"", ""⟩⟩ rfl

/-- Import symbol pointing at a file, as the analyzer creates it
(`NewImport`: zero identifier). -/
def importSymbol (f : String) : Symbol :=
  ⟨.Import, ⟨"", ⟨⟨0, 0⟩, ⟨0, 0⟩⟩⟩, "", none, none, f, ⟨"", ""⟩⟩

/-- Root scope of a file that only imports "b.dsp". -/
def scopeA : Scope := .mk none [importSymbol "b.dsp"] [] ⟨⟨0, 0⟩, ⟨0, 0⟩⟩

/-- Root scope of a file that only imports "a.dsp". -/
def scopeB : Scope := .mk none [importSymbol "a.dsp"] [] ⟨⟨0, 0⟩, ⟨0, 0⟩⟩

/-- A store with two files importing each other. -/
def cyclicStore : Store :=
  ⟨[("a.dsp", some scopeA), ("b.dsp", some scopeB)]⟩

theorem cyclic_lookup_no_fuel_suffices :
    ∀ n, FindSymbolHelper n "x" (some scopeA) cyclicStore [] = none ∧
      FindSymbolHelper n "x" (some scopeB) cyclicStore [] = none := by
  intro n
  induction n with
  | zero => exact ⟨by rw [FindSymbolHelper], by rw [FindSymbolHelper]⟩
  | succ n ih =>
    have hfA : scopeA.symbols.find? (fun sym => sym.ident = "x") = none := rfl
    have hfB : scopeB.symbols.find? (fun sym => sym.ident = "x") = none := rfl
    have hgB : cyclicStore.getFromPath (importSymbol "b.dsp").file =
        some (some scopeB) := rfl
    have hgA : cyclicStore.getFromPath (importSymbol "a.dsp").file =
        some (some scopeA) := rfl
    have hkind : ∀ f, (importSymbol f).kind = SymbolKind.Import := fun _ => rfl
    constructor
    · rw [FindSymbolHelper, hfA]
      have hloop : findSymbolImportLoop n "x" scopeA.symbols cyclicStore [] =
          none := by
        show findSymbolImportLoop n "x" [importSymbol "b.dsp"] cyclicStore [] =
          none
        rw [findSymbolImportLoop, if_pos (hkind "b.dsp")]
        simp only [hgB, ih.2]
      rw [hloop]
    · rw [FindSymbolHelper, hfB]
      have hloop : findSymbolImportLoop n "x" scopeB.symbols cyclicStore [] =
          none := by
        show findSymbolImportLoop n "x" [importSymbol "a.dsp"] cyclicStore [] =
          none
        rw [findSymbolImportLoop, if_pos (hkind "a.dsp")]
        simp only [hgA, ih.1]
      rw [hloop]

/-- Whenever the specification procedure resolves the non-last segments
to a scope, the code's segment loop reaches the same scope. -/
theorem segLoop_of_spec (fuel : Nat) (l : List String) :
    ∀ scope store sc, specResolveSegments fuel l scope store = some sc →
      segLoop fuel l scope store = some sc := by
  induction l with
  | nil =>
    intro scope store sc h
    rw [specResolveSegments] at h
    rw [segLoop]
    exact h
  | cons seg rest ih =>
    intro scope store sc h
    rw [specResolveSegments] at h
    rw [segLoop]
    cases henv : FindEnvironmentIdent fuel seg scope store with
    | none =>
      rw [henv] at h
      exact absurd h (by simp)
    | some r =>
      cases r with
      | ok sym =>
        rw [henv] at h
        simp only at h ⊢
        exact ih _ _ _ h
      | error e =>
        rw [henv] at h
        simp only at h ⊢
        cases hlib : FindLibraryIdent fuel seg scope store with
        | none =>
          rw [hlib] at h
          exact absurd h (by simp)
        | some rl =>
          cases rl with
          | error e2 =>
            rw [hlib] at h
            exact absurd h (by simp)
          | ok file =>
            rw [hlib] at h
            simp only at h ⊢
            cases hget : store.getFromPath file with
            | none =>
              rw [hget] at h
              exact absurd h (by simp)
            | some fscope =>
              cases fscope with
              | none =>
                rw [hget] at h
                exact absurd h (by simp)
              | some root =>
                rw [hget] at h
                simp only at h ⊢
                exact ih _ _ _ h

/-- Claim C1: whenever the reference resolution procedure of the
specification resolves the segments before the last — each as an
Environment binding when one resolves, preferring it, otherwise as a
Library binding switching to the library file's root scope — and reaches
scope `sc`, then `FindSymbolDefinition` returns exactly the result of
looking the last segment up by name in `sc`. -/
theorem findSymbolDefinition_resolves_dotted (fuel : Nat) (ident : String)
    (scope : Option Scope) (store : Store) (sc : Option Scope)
    (h : specResolveSegments fuel (stringsSplitDot ident).dropLast scope store =
      some sc) :
    FindSymbolDefinition fuel ident scope store =
      FindSymbol fuel ((stringsSplitDot ident).getLastD "") sc store := by
  unfold FindSymbolDefinition
  by_cases hlen : (stringsSplitDot ident).length > 1
  · rw [if_pos hlen, segLoop_of_spec fuel _ scope store sc h]
  · rw [if_neg hlen]
    have hl : (stringsSplitDot ident).dropLast = [] := by
      cases hsp : stringsSplitDot ident with
      | nil => rfl
      | cons x tl =>
        cases tl with
        | nil => rfl
        | cons y tl2 =>
          rw [hsp] at hlen
          simp at hlen
    rw [hl, specResolveSegments] at h
    injection h with h2
    rw [h2]

/-- The "c" definition inside the C1 witness library file. -/
def cSym : Symbol :=
  ⟨.Definition, ⟨"lib.dsp", ⟨⟨0, 0⟩, ⟨0, 3⟩⟩⟩, "c", none, none, "", ⟨"", ""⟩⟩

/-- Root scope of the C1 witness library file, defining "c". -/
def libRoot : Scope := .mk none [cSym] [] ⟨⟨0, 0⟩, ⟨1, 0⟩⟩

/-- The "b" Library binding pointing at the library file. -/
def bSym : Symbol :=
  ⟨.Library, ⟨"main.dsp", ⟨⟨1, 0⟩, ⟨1, 5⟩⟩⟩, "b", none, none, "lib.dsp", ⟨"", ""⟩⟩

/-- Local scope of the "a" environment, binding "b". -/
def envScope : Scope := .mk none [bSym] [] ⟨⟨1, 0⟩, ⟨2, 0⟩⟩

/-- The "a" Environment binding. -/
def aSym : Symbol :=
  ⟨.Environment, ⟨"main.dsp", ⟨⟨0, 0⟩, ⟨3, 0⟩⟩⟩, "a", some envScope, none, "",
    ⟨"", ""⟩⟩

/-- Scope of the C1 witness main file, binding "a". -/
def mainScope : Scope := .mk none [aSym] [] ⟨⟨0, 0⟩, ⟨4, 0⟩⟩

/-- Store of the C1 witness: the library file with its root scope. -/
def c1Store : Store := ⟨[("lib.dsp", some libRoot)]⟩

/-- Claim C1, witness: resolving "a.b.c" where "a" is an Environment
whose scope binds "b" as a Library of a stored file defining "c" — the
procedure reaches the library root and `FindSymbolDefinition` equals the
lookup of "c" there. -/
theorem findSymbolDefinition_resolves_dotted_witness :
    specResolveSegments 10 (stringsSplitDot "a.b.c").dropLast (some mainScope)
        c1Store = some (some libRoot) ∧
      FindSymbolDefinition 10 "a.b.c" (some mainScope) c1Store =
        FindSymbol 10 ((stringsSplitDot "a.b.c").getLastD "") (some libRoot)
          c1Store := by
  have hsegs : (stringsSplitDot "a.b.c").dropLast = ["a", "b"] := rfl
  have hspec : specResolveSegments 10 ["a", "b"] (some mainScope) c1Store =
      some (some libRoot) := by
    have hffA : FindFirstEnvironment aSym = some (.ok aSym) := by
      simp [FindFirstEnvironment, aSym]
    have hffB : FindFirstEnvironment bSym =
        some (.error "Could not find environment in symbol") := by
      simp [FindFirstEnvironment, bSym]
    have henvA : FindEnvironmentIdent 10 "a" (some mainScope) c1Store =
        some (.ok aSym) := by
      rw [FindEnvironmentIdent, FindEnvironmentHelper]
      rw [show mainScope.symbols.find? (fun sym => sym.ident = "a") =
        some aSym from rfl]
      exact hffA
    have henvB : FindEnvironmentIdent 10 "b" aSym.scope c1Store =
        some (.error "Could not find environment in symbol") := by
      rw [show aSym.scope = some envScope from rfl]
      rw [FindEnvironmentIdent, FindEnvironmentHelper]
      rw [show envScope.symbols.find? (fun sym => sym.ident = "b") =
        some bSym from rfl]
      exact hffB
    have hlibB : FindLibraryIdent 10 "b" aSym.scope c1Store =
        some (.ok "lib.dsp") := by
      rw [show aSym.scope = some envScope from rfl]
      rw [FindLibraryIdent, FindLibraryHelper]
      rw [show envScope.symbols.find? (fun sym => sym.ident = "b") =
        some bSym from rfl]
      rfl
    have hget : c1Store.getFromPath "lib.dsp" = some (some libRoot) := rfl
    simp only [specResolveSegments, henvA, henvB, hlibB, hget]
  refine ⟨by rw [hsegs]; exact hspec, ?_⟩
  exact findSymbolDefinition_resolves_dotted 10 "a.b.c" (some mainScope)
    c1Store (some libRoot) (by rw [hsegs]; exact hspec)

/-- Claim C3: on a store whose two files import each other, looking up an
identifier bound in neither file never completes, whatever fuel is
granted — the Go original recurses file-to-file forever. The visited set
exists in the signatures but is never consulted or extended, so it
prevents nothing. -/
theorem findSymbol_cyclic_diverges :
    ∀ fuel, FindSymbol fuel "x" (some scopeA) cyclicStore = none :=
  fun fuel => (cyclic_lookup_no_fuel_suffices fuel).1

end Faustlsp
